import Mathlib

/-
Verification of the Poseidon dashboard's client-side state and analytics core.

The development shallowly embeds the TypeScript sources:
  frontend/src/app/core/number-formatting.service.ts   (toNumberSafe)
  frontend/src/app/core/ws.service.ts                  (toNumOrNull, positions enrichment, trade cap)
  frontend/src/app/core/websocket.service.ts           (store apply dispatch, caps, analytics upsert)
  frontend/src/app/pages/analytics/analytics.component.ts (quantile, decileEdges, binIndex, lttb)
  the analytics grid component (makeBins / makeHistogram)
  positions detail component (computeDeltaPercent)

JavaScript numbers are idealized as exact rationals extended with NaN and the two
infinities; IEEE-754 rounding is not modelled (none of the proved or refuted
properties below hinges on rounding, only on NaN/infinity propagation, clamping,
ordering and list structure).  String-to-number conversion models the ES
ToNumber fragment actually exercised by the code: whitespace trimming, the empty
string, signed decimal literals with an optional fraction part, and the
Infinity literals; every other literal converts to NaN.  The string rendering
of a number is kept symbolic (constructor JStr.ofNum), which encodes the
ECMAScript guarantee that ToNumber(ToString(n)) recovers n for every number.
-/

/-- Model of a JavaScript number: an exact rational, NaN, or an infinity. -/
inductive JNum where
| fin (q : ℚ)
| nan
| inf
| ninf
deriving DecidableEq, Repr

/-- Number.isFinite on the model. -/
def JNum.isFiniteN : JNum → Bool
| .fin _ => true
| _ => false

/-- Model of a JavaScript string as far as numeric conversion is concerned:
either the rendering of a number (String(n)) kept symbolic, or a literal. -/
inductive JStr where
| ofNum (n : JNum)
| lit (s : String)
deriving DecidableEq, Repr

/-- Model of the JavaScript values flowing through the coercion helpers:
numbers, strings, booleans, null and undefined. -/
inductive JsVal where
| num (n : JNum)
| str (s : JStr)
| boolV (b : Bool)
| null
| undef
deriving DecidableEq, Repr

/-- Numeric value of a digit list read in base ten. -/
def natOfDigits (cs : List Char) : ℕ :=
  cs.foldl (fun a c => a * 10 + (c.toNat - 48)) 0

/-- Split a character list at the first dot, keeping the remainder. -/
def breakDot : List Char → (List Char × Option (List Char))
| [] => ([], none)
| '.' :: rest => ([], some rest)
| c :: rest =>
  let p := breakDot rest
  (c :: p.1, p.2)

/-- Parse an unsigned decimal literal (digits, optionally with one dot and a
fraction part; at least one digit overall), as ES StrUnsignedDecimalLiteral
restricted to the forms without an exponent. -/
def parseUnsigned (cs : List Char) : Option ℚ :=
  match breakDot cs with
  | (ip, none) =>
    if ip ≠ [] ∧ ip.all Char.isDigit then some (natOfDigits ip) else none
  | (ip, some fp) =>
    if (ip ≠ [] ∨ fp ≠ []) ∧ ip.all Char.isDigit ∧ fp.all Char.isDigit then
      some ((natOfDigits ip : ℚ) + (natOfDigits fp : ℚ) / 10 ^ fp.length)
    else none

/-- Whitespace test used by the trimming step of ToNumber. -/
def isWsChar (c : Char) : Bool :=
  c = ' ' ∨ c = '\t' ∨ c = '\n' ∨ c = '\r'

/-- Trim leading and trailing whitespace, over the character list. -/
def trimWs (cs : List Char) : List Char :=
  ((cs.dropWhile isWsChar).reverse.dropWhile isWsChar).reverse

/-- ES ToNumber on a string literal (fragment: trim, empty string, Infinity
forms, signed decimal literal; anything else is NaN). -/
def strLitToNumber (s : String) : JNum :=
  match trimWs s.toList with
  | [] => .fin 0
  | t =>
    if t = "Infinity".toList ∨ t = "+Infinity".toList then .inf
    else if t = "-Infinity".toList then .ninf
    else
      match t with
      | '-' :: rest =>
        match parseUnsigned rest with
        | some q => .fin (-q)
        | none => .nan
      | '+' :: rest =>
        match parseUnsigned rest with
        | some q => .fin q
        | none => .nan
      | _ =>
        match parseUnsigned t with
        | some q => .fin q
        | none => .nan

/-- ES ToNumber on a string value.  On a symbolic rendering of a number this
returns that number, realizing the round-trip law ToNumber(ToString(n)) = n
(which also covers the literals "NaN", "Infinity", "-Infinity"). -/
def strToNumber : JStr → JNum
| .ofNum n => n
| .lit s => strLitToNumber s

/-- ES ToNumber on the modelled value domain (Number(v)). -/
def jsToNumber : JsVal → JNum
| .num n => n
| .str s => strToNumber s
| .boolV b => .fin (if b then 1 else 0)
| .null => .fin 0
| .undef => .nan

/-- ES ToString on the modelled value domain (String(v)). -/
def jsStringOf : JsVal → JStr
| .num n => .ofNum n
| .str s => s
| .boolV b => .lit (if b then "true" else "false")
| .null => .lit "null"
| .undef => .lit "undefined"

/-- NumberFormattingService.toNumberSafe: null and undefined map to null
(value == null is the loose test), otherwise Number(value), kept only when
finite. -/
def toNumberSafe (v : JsVal) : Option ℚ :=
  if v = .null ∨ v = .undef then none
  else
    match jsToNumber v with
    | .fin q => some q
    | _ => none

/-- WsService.toNumOrNull: same contract as toNumberSafe, written in
ws.service.ts with the strict tests v === null, v === undefined. -/
def toNumOrNull (v : JsVal) : Option ℚ :=
  if v = .null ∨ v = .undef then none
  else
    match jsToNumber v with
    | .fin q => some q
    | _ => none

/-- Analytics record as far as the store logic inspects it: the id used by the
upsert match and the evaluatedAt timestamp used by the descending sort.  Both
fields are nullable in the payloads. -/
structure AnalyticsRec where
  id : Option String
  evaluatedAt : Option String
deriving DecidableEq, Repr

/-- Sort key of an analytics record: (r.evaluatedAt || ''). -/
def evalKey (r : AnalyticsRec) : String :=
  r.evaluatedAt.getD ""

/-- Comparator relation of the analytics sort: record a sorts no later than
record b exactly when b's key is at most a's key (descending by evaluatedAt).
The localeCompare collation is modelled by the codepoint order, which agrees
with it on the ISO-8601 timestamps the field carries. -/
def alMoreRecent (a b : AnalyticsRec) : Prop :=
  evalKey b ≤ evalKey a

instance : DecidableRel alMoreRecent :=
  fun a b => inferInstanceAs (Decidable (evalKey b ≤ evalKey a))

instance : IsTotal AnalyticsRec alMoreRecent :=
  ⟨fun a b => le_total (evalKey b) (evalKey a)⟩

instance : IsTrans AnalyticsRec alMoreRecent :=
  ⟨fun _ _ _ hab hbc => le_trans hbc hab⟩

/-- Stable descending sort by evaluatedAt, embedding
[...rows].sort((a, b) => (b.evaluatedAt || '').localeCompare(a.evaluatedAt || '')). -/
def alSortDesc (rows : List AnalyticsRec) : List AnalyticsRec :=
  List.insertionSort alMoreRecent rows

/-- The four store slices of WebSocketService.  Portfolio and position payloads
are opaque to every property proved here, so they are carried as plain data;
a trade slot is Option String because an absent (undefined) trade payload is
stored as-is by the trade branch. -/
structure Store where
  portfolio : Option String
  positions : List String
  trades : List (Option String)
  analytics : List AnalyticsRec
deriving DecidableEq, Repr

/-- The empty initial store: null portfolio, empty collections. -/
def emptyStore : Store :=
  { portfolio := none, positions := [], trades := [], analytics := [] }

/-- Inbound message taxonomy of WebSocketService.apply.  The analytics payload
dispatch (Array.isArray / truthy single record / falsy) is resolved at the
constructor level, since in JS it is decided by the payload's runtime type. -/
inductive WsMsg where
| init (portfolio : Option String) (positions : Option (List String))
    (trades : Option (List (Option String))) (analytics : Option (List AnalyticsRec))
| portfolioMsg (p : Option String)
| positionsMsg (p : Option (List String))
| tradesMsg (p : Option (List (Option String)))
| trade (p : Option String)
| analyticsArr (rows : List AnalyticsRec)
| analyticsOne (row : AnalyticsRec)
| analyticsNull
| pong
| errorMsg
| other (t : String)
deriving DecidableEq, Repr

/-- WebSocketService.apply, branch by branch.  Option.getD [] embeds the
payload ?? [] defaults; the trade branch prepends the payload as-is and keeps
the first 200; the analytics branches sort descending and keep the first 5000,
or upsert by id (strict equality, where undefined === undefined holds, hence
plain Option equality). -/
def applyMsg (s : Store) (m : WsMsg) : Store :=
  match m with
  | .init pf ps tr an =>
    { portfolio := pf
      positions := ps.getD []
      trades := tr.getD []
      analytics := (alSortDesc (an.getD [])).take 5000 }
  | .portfolioMsg p => { s with portfolio := p }
  | .positionsMsg p => { s with positions := p.getD [] }
  | .tradesMsg p => { s with trades := p.getD [] }
  | .trade p => { s with trades := (p :: s.trades).take 200 }
  | .analyticsArr rows => { s with analytics := (alSortDesc rows).take 5000 }
  | .analyticsOne row =>
    match s.analytics.findIdx? (fun r => r.id == row.id) with
    | some j => { s with analytics := s.analytics.set j row }
    | none => { s with analytics := (row :: s.analytics).take 5000 }
  | .analyticsNull => s
  | .pong => s
  | .errorMsg => s
  | .other _ => s

/-- Apply a whole sequence of inbound messages in arrival order. -/
def applyAll (s : Store) (ms : List WsMsg) : Store :=
  ms.foldl applyMsg s

/-- The socket.onmessage boundary: a frame either decodes to a message, which
is applied, or fails to decode (none), in which case it is logged and dropped
by the catch handler and the store is untouched. -/
def onFrame (s : Store) (f : Option WsMsg) : Store :=
  match f with
  | none => s
  | some m => applyMsg s m

/-- Raw incoming position as WsService.apply reads it: the address key and the
dynamic last_price / entry fields. -/
structure RawPos where
  address : String
  lastPriceRaw : JsVal
  entryRaw : JsVal
deriving DecidableEq, Repr

/-- Direction tag computed by the positions enrichment. -/
inductive MoveDir where
| up
| down
| flat
deriving DecidableEq, Repr

/-- Enriched position view: the fields the enrichment writes
(last_price, _lastDir, _changePct). -/
structure PositionView where
  address : String
  lastPrice : Option ℚ
  lastDir : MoveDir
  changePct : Option ℚ
deriving DecidableEq, Repr

/-- The prevLastByAddress record: an association list read through its first
matching key, written by shadowing. -/
abbrev AddrMap : Type := List (String × ℚ)

/-- Read prevLastByAddress[a]; none models undefined. -/
def lookupAddr (m : AddrMap) (a : String) : Option ℚ :=
  match m with
  | [] => none
  | kv :: rest => if kv.1 = a then some kv.2 else lookupAddr rest a

/-- Enrich one incoming position against the current prevLastByAddress record,
returning the enriched view and the updated record.  Mirrors the body of the
map callback in the positions branch of WsService.apply: the direction is
computed from the record as it stands when this item is processed, and the
record is updated (only) when last is non-null. -/
def enrichOne (m : AddrMap) (p : RawPos) : PositionView × AddrMap :=
  let last := toNumOrNull p.lastPriceRaw
  let entry := toNumOrNull p.entryRaw
  let prev := lookupAddr m p.address
  let dir : MoveDir :=
    match last with
    | some l =>
      match prev with
      | some pv => if l > pv then .up else if l < pv then .down else .flat
      | none => .flat
    | none => .flat
  let m2 : AddrMap :=
    match last with
    | some l => (p.address, l) :: m
    | none => m
  let changePct : Option ℚ :=
    match last, entry with
    | some l, some e => if e > 0 then some ((l - e) / e * 100) else none
    | _, _ => none
  (⟨p.address, last, dir, changePct⟩, m2)

/-- The positions branch of WsService.apply: map the enrichment over the
incoming batch left to right, threading prevLastByAddress through (the JS
callback mutates the record in place as it walks the array). -/
def enrichPositions (m : AddrMap) (payload : List RawPos) : List PositionView × AddrMap :=
  match payload with
  | [] => ([], m)
  | p :: rest =>
    let h := enrichOne m p
    let t := enrichPositions h.2 rest
    (h.1 :: t.1, t.2)

/-- Direction the claim prescribes: compared against the price recorded before
the event, i.e. a value read from the pre-event record only.  This is the
spec-side definition used to state the refinement; the code-side definition is
enrichOne, which reads the record as already updated by earlier items of the
same batch. -/
def dirPerClaim (prevStored : Option ℚ) (last : Option ℚ) : MoveDir :=
  match last with
  | some l =>
    match prevStored with
    | some pv => if l > pv then .up else if l < pv then .down else .flat
    | none => .flat
  | none => .flat

/-- Default raw position used by positional list access. -/
def dfltRaw : RawPos := ⟨"", .undef, .undef⟩

/-- Default enriched view used by positional list access. -/
def dfltPV : PositionView := ⟨"", none, .flat, none⟩

/-- Position row as the delta-percent derivations read it: the _changePct
enrichment slot and the raw last_price / entry fields. -/
structure PosRow where
  changePctField : JsVal
  lastPriceField : JsVal
  entryField : JsVal
deriving DecidableEq, Repr

/-- computeDeltaPercent of the positions detail component; the Δ % valueGetter
of positions-table.component.ts is the same expression.  A null row yields
null; a numeric _changePct enrichment is preferred; otherwise the value is
computed from last_price and entry, with null when either is unknown or entry
is exactly zero. -/
def computeDeltaPercent (row : Option PosRow) : Option ℚ :=
  match row with
  | none => none
  | some r =>
    match toNumberSafe r.changePctField with
    | some e => some e
    | none =>
      match toNumberSafe r.lastPriceField, toNumberSafe r.entryField with
      | some last, some entry =>
        if entry = 0 then none else some ((last - entry) / |entry| * 100)
      | some _, none => none
      | none, _ => none

/-- AnalyticsComponent.quantile: linear interpolation at position (n-1)*q
between the neighbouring order statistics; sortedAsc[base+1] ?? a is embedded
by the getD default. -/
def quantile (sortedAsc : List ℚ) (q : ℚ) : ℚ :=
  let n := sortedAsc.length
  if n = 0 then 0
  else
    let pos : ℚ := ((n - 1 : ℕ) : ℚ) * q
    let base : ℕ := (Int.floor pos).toNat
    let rest : ℚ := pos - (base : ℚ)
    let a := sortedAsc.getD base 0
    let b := sortedAsc.getD (base + 1) a
    a + (b - a) * rest

/-- Ascending numeric sort [...values].sort((a, b) => a - b). -/
def sortAsc (values : List ℚ) : List ℚ :=
  List.insertionSort (· ≤ ·) values

/-- AnalyticsComponent.decileEdges: the 11 quantile edges at q = 0, 0.1, …, 1. -/
def decileEdges (values : List ℚ) : List ℚ :=
  (List.range 11).map (fun i : ℕ => quantile (sortAsc values) ((i : ℚ) / 10))

/-- AnalyticsComponent.binIndex.  A non-finite v short-circuits to 0; otherwise
the first i with edges[i] ≤ v ≤ edges[i+1] wins, clamped to the last bin, and
the fallthrough is the last bin.  The result is an ℤ because the JS expression
edges.length - 2 may be negative for degenerate edge arrays. -/
def binIndex (v : JNum) (edges : List ℚ) : ℤ :=
  let last : ℤ := (edges.length : ℤ) - 2
  match v with
  | .fin x =>
    match (List.range (edges.length - 1)).find?
        (fun i => decide (edges.getD i 0 ≤ x ∧ x ≤ edges.getD (i + 1) 0)) with
    | some i => min (i : ℤ) last
    | none => last
  | _ => 0

/-- Scatter point of the lttb decimation. -/
structure Pt where
  x : ℚ
  y : ℚ
deriving DecidableEq, Repr

/-- Default point used by positional access (never observed on the in-range
indices the algorithm produces). -/
def dfltPt : Pt := ⟨0, 0⟩

/-- One iteration body of the lttb loop: choose from bucket i the point of
maximal triangle area with the previously selected point a and the average of
the next bucket.  Indices are the exact JS ones: with bucketSize =
(n-2)/(threshold-2), Math.floor((i+k)*bucketSize) over naturals is natural
division. -/
def lttbChoose (points : List Pt) (n t i a : ℕ) : Pt :=
  let start := (i + 1) * (n - 2) / (t - 2) + 1
  let stop := (i + 2) * (n - 2) / (t - 2) + 1
  let stopC := min stop n
  let bucket := (List.range' start (stopC - start)).map (fun j => points.getD j dfltPt)
  let count := bucket.length
  let avgX : ℚ := if count > 0 then (bucket.map Pt.x).sum / count else 0
  let avgY : ℚ := if count > 0 then (bucket.map Pt.y).sum / count else 0
  let pa := points.getD a dfltPt
  let rs := i * (n - 2) / (t - 2) + 1
  let re := (i + 1) * (n - 2) / (t - 2) + 1
  let pick := fun (acc : ℚ × Pt) (p : Pt) =>
    let area := |(pa.x - avgX) * (p.y - pa.y) - (pa.x - p.x) * (avgY - pa.y)| * (1 / 2)
    if area > acc.1 then (area, p) else acc
  (((List.range' rs (re - rs)).map (fun j => points.getD j dfltPt)).foldl pick
    (-1, points.getD start dfltPt)).2

/-- The middle selections of lttb: fuel counts the remaining loop iterations,
i the current bucket, a the index of the previously selected point, updated as in
points.indexOf(chosen) to the first index holding the chosen value. -/
def lttbMid (points : List Pt) (n t : ℕ) : ℕ → ℕ → ℕ → List Pt
| 0, _, _ => []
| fuel + 1, i, a =>
  let c := lttbChoose points n t i a
  c :: lttbMid points n t fuel (i + 1) (points.findIdx (fun p => p == c))

/-- AnalyticsComponent.lttb.  The guard returns the input unchanged when
threshold >= points.length or threshold <= 0; otherwise the first point, the
threshold-2 bucket selections, and the last point. -/
def lttb (points : List Pt) (threshold : ℤ) : List Pt :=
  let n := points.length
  if threshold ≥ (n : ℤ) ∨ threshold ≤ 0 then points
  else
    let t := threshold.toNat
    (points.getD 0 dfltPt :: lttbMid points n t (t - 2) 0 0) ++ [points.getD (n - 1) dfltPt]

/-- Math.min on two model numbers: NaN absorbs, otherwise the smaller. -/
def jMinOp : JNum → JNum → JNum
| .nan, _ => .nan
| _, .nan => .nan
| .ninf, _ => .ninf
| _, .ninf => .ninf
| .inf, b => b
| a, .inf => a
| .fin p, .fin q => .fin (min p q)

/-- Math.max on two model numbers: NaN absorbs, otherwise the larger. -/
def jMaxOp : JNum → JNum → JNum
| .nan, _ => .nan
| _, .nan => .nan
| .inf, _ => .inf
| _, .inf => .inf
| .ninf, b => b
| a, .ninf => a
| .fin p, .fin q => .fin (max p q)

/-- IEEE subtraction on the model (exact on finite operands). -/
def jSub : JNum → JNum → JNum
| .nan, _ => .nan
| _, .nan => .nan
| .inf, .inf => .nan
| .ninf, .ninf => .nan
| .inf, _ => .inf
| .ninf, _ => .ninf
| _, .inf => .ninf
| _, .ninf => .inf
| .fin p, .fin q => .fin (p - q)

/-- IEEE addition on the model (exact on finite operands). -/
def jAdd : JNum → JNum → JNum
| .nan, _ => .nan
| _, .nan => .nan
| .inf, .ninf => .nan
| .ninf, .inf => .nan
| .inf, _ => .inf
| _, .inf => .inf
| .ninf, _ => .ninf
| _, .ninf => .ninf
| .fin p, .fin q => .fin (p + q)

/-- IEEE multiplication on the model (exact on finite operands; signed zeros
are collapsed to 0). -/
def jMul : JNum → JNum → JNum
| .nan, _ => .nan
| _, .nan => .nan
| .inf, .inf => .inf
| .inf, .ninf => .ninf
| .ninf, .inf => .ninf
| .ninf, .ninf => .inf
| .inf, .fin q => if q = 0 then .nan else if 0 < q then .inf else .ninf
| .fin q, .inf => if q = 0 then .nan else if 0 < q then .inf else .ninf
| .ninf, .fin q => if q = 0 then .nan else if 0 < q then .ninf else .inf
| .fin q, .ninf => if q = 0 then .nan else if 0 < q then .ninf else .inf
| .fin p, .fin q => .fin (p * q)

/-- IEEE division on the model (exact on finite operands; signed zeros are
collapsed, so x/0 takes the sign of x alone). -/
def jDiv : JNum → JNum → JNum
| .nan, _ => .nan
| _, .nan => .nan
| .inf, .inf => .nan
| .inf, .ninf => .nan
| .ninf, .inf => .nan
| .ninf, .ninf => .nan
| .inf, .fin q => if 0 ≤ q then .inf else .ninf
| .ninf, .fin q => if 0 ≤ q then .ninf else .inf
| .fin _, .inf => .fin 0
| .fin _, .ninf => .fin 0
| .fin p, .fin q =>
  if q = 0 then (if p = 0 then .nan else if 0 < p then .inf else .ninf)
  else .fin (p / q)

/-- Math.floor on the model. -/
def jFloor : JNum → JNum
| .fin q => .fin (Int.floor q : ℤ)
| n => n

/-- JS truthiness of a number: zero and NaN are falsy. -/
def jTruthy : JNum → Bool
| .fin q => q ≠ 0
| .nan => false
| _ => true

/-- The JS expression a || b on numbers. -/
def jOrDefault (a b : JNum) : JNum :=
  if jTruthy a then a else b

/-- Math.min(...values); the empty spread yields Infinity. -/
def jsMinOf (values : List JNum) : JNum :=
  values.foldl jMinOp .inf

/-- Math.max(...values); the empty spread yields -Infinity. -/
def jsMaxOf (values : List JNum) : JNum :=
  values.foldl jMaxOp .ninf

/-- The step of makeBins: (max - min) / (bins || 1) || 1. -/
def binsStep (values : List JNum) (bins : ℕ) : JNum :=
  jOrDefault
    (jDiv (jSub (jsMaxOf values) (jsMinOf values)) (.fin (if bins = 0 then 1 else (bins : ℚ))))
    (.fin 1)

/-- The edges of makeBins: min + i * step for i = 0 … bins. -/
def binsEdges (values : List JNum) (bins : ℕ) : List JNum :=
  (List.range (bins + 1)).map
    (fun i => jAdd (jsMinOf values) (jMul (.fin (i : ℚ)) (binsStep values bins)))

/-- The indexOf closure of makeBins:
Math.min(bins - 1, Math.max(0, Math.floor((v - min) / step))). -/
def binsIndexOf (values : List JNum) (bins : ℕ) (v : JNum) : JNum :=
  jMinOp (.fin ((bins : ℚ) - 1))
    (jMaxOp (.fin 0) (jFloor (jDiv (jSub v (jsMinOf values)) (binsStep values bins))))

/-- One counting step of makeHistogram: counts[idx]++.  When idx is an integer
within the array bounds the slot is incremented; any other idx (NaN from a
poisoned min/step, in particular) creates or bumps a non-element property of
the JS array, leaving every per-bin slot unchanged, which is what the returned
counts list records. -/
def bumpCount (counts : List ℕ) (idx : JNum) : List ℕ :=
  match idx with
  | .fin q =>
    if 0 ≤ q.num ∧ q.den = 1 ∧ q.num.toNat < counts.length then
      counts.set q.num.toNat (counts.getD q.num.toNat 0 + 1)
    else counts
  | _ => counts

/-- makeHistogram of the analytics grid component: per-bin counts over the
equal-width bins of makeBins. -/
def makeHistogram (values : List JNum) (bins : ℕ) : List ℕ :=
  values.foldl (fun c v => bumpCount c (binsIndexOf values bins v)) (List.replicate bins 0)

/-- Default analytics record used by positional list access. -/
def dfltRec : AnalyticsRec := ⟨none, none⟩

/-- C3: the Δ % derivation prefers a numeric _changePct enrichment; otherwise
it computes (last - entry) / |entry| * 100 when both fields coerce and entry
is nonzero, and yields null when either is unknown or entry is zero. -/
theorem deltaPercent_spec (r : PosRow) :
    (∀ q : ℚ, toNumberSafe r.changePctField = some q →
      computeDeltaPercent (some r) = some q) ∧
    (toNumberSafe r.changePctField = none →
      (∀ l e : ℚ, toNumberSafe r.lastPriceField = some l →
        toNumberSafe r.entryField = some e → e ≠ 0 →
        computeDeltaPercent (some r) = some ((l - e) / |e| * 100)) ∧
      ((toNumberSafe r.lastPriceField = none ∨ toNumberSafe r.entryField = none ∨
        toNumberSafe r.entryField = some 0) → computeDeltaPercent (some r) = none)) := by
  refine ⟨fun q h => by simp [computeDeltaPercent, h], fun h0 => ⟨?_, ?_⟩⟩
  · intro l e hl he hne
    simp [computeDeltaPercent, h0, hl, he, hne]
  · rintro (h | h | h)
    · cases he : toNumberSafe r.entryField <;>
        simp [computeDeltaPercent, h0, h, he]
    · cases hl : toNumberSafe r.lastPriceField <;>
        simp [computeDeltaPercent, h0, h, hl]
    · cases hl : toNumberSafe r.lastPriceField <;>
        simp [computeDeltaPercent, h0, h, hl]

/-- Witness for C3 at a concrete row: entry 100, last 110, no enrichment. -/
theorem deltaPercent_spec_witness :
    computeDeltaPercent (some ⟨.undef, .num (.fin 110), .num (.fin 100)⟩) =
      some ((110 - 100) / |(100 : ℚ)| * 100) :=
  ((deltaPercent_spec ⟨.undef, .num (.fin 110), .num (.fin 100)⟩).2 (by decide)).1
    110 100 (by decide) (by decide) (by norm_num)

/-- Range and non-finite behaviour of binIndex, shared by the safety and the
decile-partition results. -/
theorem binIndex_bounds_aux (v : JNum) (edges : List ℚ) (h2 : 2 ≤ edges.length) :
    (v.isFiniteN = false → binIndex v edges = 0) ∧
    0 ≤ binIndex v edges ∧ binIndex v edges ≤ (edges.length : ℤ) - 2 := by
  have hlast : (0 : ℤ) ≤ (edges.length : ℤ) - 2 := by
    have : (2 : ℤ) ≤ (edges.length : ℤ) := by exact_mod_cast h2
    omega
  cases v with
  | fin x =>
    refine ⟨fun hfalse => by simp [JNum.isFiniteN] at hfalse, ?_⟩
    unfold binIndex
    dsimp only
    constructor
    · split
      · exact le_min (Int.natCast_nonneg _) hlast
      · exact hlast
    · split
      · exact min_le_right _ _
      · exact le_refl _
  | nan => exact ⟨fun _ => rfl, le_refl 0, hlast⟩
  | inf => exact ⟨fun _ => rfl, le_refl 0, hlast⟩
  | ninf => exact ⟨fun _ => rfl, le_refl 0, hlast⟩

/-- C10: on an edges array with at least two entries, binIndex sends every
non-finite input to 0 and every input whatsoever to an index between 0 and
edges.length - 2, so the bucket-array accesses that follow are in range (the
loop itself only reads edges[i] and edges[i+1] for i < edges.length - 1). -/
theorem binIndex_total_bounds (v : JNum) (edges : List ℚ) (h2 : 2 ≤ edges.length) :
    (v.isFiniteN = false → binIndex v edges = 0) ∧
    0 ≤ binIndex v edges ∧ binIndex v edges ≤ (edges.length : ℤ) - 2 :=
  binIndex_bounds_aux v edges h2

/-- Witness for C10: NaN on a two-edge array lands in bin 0, which is within
bounds. -/
theorem binIndex_total_bounds_witness :
    binIndex .nan [0, 1] = 0 ∧ 0 ≤ binIndex .nan [(0 : ℚ), 1] ∧
      binIndex .nan [(0 : ℚ), 1] ≤ (([(0 : ℚ), 1] : List ℚ).length : ℤ) - 2 :=
  ⟨(binIndex_total_bounds .nan [0, 1] (by decide)).1 (by decide),
    (binIndex_total_bounds .nan [0, 1] (by decide)).2⟩

/-- C6 (amended): toNumberSafe and toNumOrNull agree everywhere, and on every
non-boolean value whose coercion is non-null, coercing the String() rendering
yields the same number.  Booleans break the round trip (see the
counterexample): Number(true) is 1 but Number(String(true)) is NaN. -/
theorem toNum_roundtrip (v : JsVal) (q : ℚ) (hb : ∀ b, v ≠ JsVal.boolV b)
    (h : toNumOrNull v = some q) :
    toNumberSafe v = toNumOrNull v ∧ toNumOrNull (.str (jsStringOf v)) = some q := by
  refine ⟨rfl, ?_⟩
  cases v with
  | num n =>
    cases n with
    | fin p =>
      have : p = q := by simpa [toNumOrNull, jsToNumber] using h
      subst this
      rfl
    | nan => simp [toNumOrNull, jsToNumber] at h
    | inf => simp [toNumOrNull, jsToNumber] at h
    | ninf => simp [toNumOrNull, jsToNumber] at h
  | str s => exact h
  | boolV b => exact absurd rfl (hb b)
  | null => simp [toNumOrNull] at h
  | undef => simp [toNumOrNull] at h

/-- Counterexample to C6 as stated: the boolean true coerces to 1, while its
string rendering "true" coerces to NaN, hence null. -/
theorem toNum_roundtrip_cex :
    toNumOrNull (.boolV true) = some 1 ∧
      toNumOrNull (.str (jsStringOf (.boolV true))) = none := by
  constructor <;> rfl

/-- Witness for C6 at the number 3. -/
theorem toNum_roundtrip_witness :
    toNumberSafe (.num (.fin 3)) = toNumOrNull (.num (.fin 3)) ∧
      toNumOrNull (.str (jsStringOf (.num (.fin 3)))) = some 3 :=
  toNum_roundtrip (.num (.fin 3)) 3 (by decide) rfl

/-- The middle selections contribute exactly fuel points. -/
theorem lttbMid_length (points : List Pt) (n t : ℕ) :
    ∀ (fuel i a : ℕ), (lttbMid points n t fuel i a).length = fuel := by
  intro fuel
  induction fuel with
  | zero => intro i a; rfl
  | succ m ih =>
    intro i a
    simp [lttbMid, ih]

/-- C2: lttb is the identity when the threshold is at least the point count or
non-positive; for 2 ≤ threshold < points.length the result has at most
threshold points (exactly threshold, in fact), starts with the first input
point and ends with the last input point. -/
theorem lttb_shape (points : List Pt) (threshold : ℤ) :
    ((threshold ≥ (points.length : ℤ) ∨ threshold ≤ 0) → lttb points threshold = points) ∧
    (2 ≤ threshold → threshold < (points.length : ℤ) →
      ((lttb points threshold).length : ℤ) ≤ threshold ∧
      (lttb points threshold).head? = points.head? ∧
      (lttb points threshold).getLast? = points.getLast?) := by
  constructor
  · intro h
    unfold lttb
    rw [if_pos h]
  · intro h2 hlt
    have hneg : ¬(threshold ≥ (points.length : ℤ) ∨ threshold ≤ 0) := by
      push_neg
      exact ⟨hlt, by omega⟩
    have ht : (threshold.toNat : ℤ) = threshold := Int.toNat_of_nonneg (by omega)
    have ht2 : 2 ≤ threshold.toNat := by omega
    have hn : threshold.toNat < points.length := by
      have := hlt
      omega
    have hpos : 0 < points.length := by omega
    have hres : lttb points threshold =
        (points.getD 0 dfltPt ::
          lttbMid points points.length threshold.toNat (threshold.toNat - 2) 0 0) ++
          [points.getD (points.length - 1) dfltPt] := by
      unfold lttb
      rw [if_neg hneg]
    refine ⟨?_, ?_, ?_⟩
    · rw [hres]
      simp only [List.length_append, List.length_cons, List.length_nil,
        lttbMid_length]
      omega
    · rw [hres]
      cases points with
      | nil => simp at hpos
      | cons p rest => rfl
    · rw [hres]
      have hlast : points.getLast? = some (points.getD (points.length - 1) dfltPt) := by
        cases points with
        | nil => simp at hpos
        | cons p rest =>
          rw [List.getLast?_eq_getElem?, List.getD_eq_getElem?_getD]
          have hidx : (p :: rest).length - 1 < (p :: rest).length := by simp
          rw [List.getElem?_eq_getElem hidx]
          rfl
      rw [hlast]
      rw [List.getLast?_concat]

/-- Witness for C2: a seven-point series decimated to threshold 4 keeps the
first and last points and four points in total; threshold 9 is the identity. -/
theorem lttb_shape_witness :
    lttb [⟨0, 0⟩, ⟨1, 5⟩, ⟨2, 1⟩, ⟨3, 9⟩, ⟨4, 2⟩, ⟨5, 7⟩, ⟨6, 0⟩] 9 =
        [⟨0, 0⟩, ⟨1, 5⟩, ⟨2, 1⟩, ⟨3, 9⟩, ⟨4, 2⟩, ⟨5, 7⟩, ⟨6, 0⟩] ∧
      ((lttb [⟨0, 0⟩, ⟨1, 5⟩, ⟨2, 1⟩, ⟨3, 9⟩, ⟨4, 2⟩, ⟨5, 7⟩, ⟨6, 0⟩] 4).length : ℤ) ≤ 4 ∧
      (lttb [⟨0, 0⟩, ⟨1, 5⟩, ⟨2, 1⟩, ⟨3, 9⟩, ⟨4, 2⟩, ⟨5, 7⟩, ⟨6, 0⟩] 4).head? =
        ([⟨0, 0⟩, ⟨1, 5⟩, ⟨2, 1⟩, ⟨3, 9⟩, ⟨4, 2⟩, ⟨5, 7⟩, ⟨6, 0⟩] : List Pt).head? ∧
      (lttb [⟨0, 0⟩, ⟨1, 5⟩, ⟨2, 1⟩, ⟨3, 9⟩, ⟨4, 2⟩, ⟨5, 7⟩, ⟨6, 0⟩] 4).getLast? =
        ([⟨0, 0⟩, ⟨1, 5⟩, ⟨2, 1⟩, ⟨3, 9⟩, ⟨4, 2⟩, ⟨5, 7⟩, ⟨6, 0⟩] : List Pt).getLast? :=
  ⟨(lttb_shape [⟨0, 0⟩, ⟨1, 5⟩, ⟨2, 1⟩, ⟨3, 9⟩, ⟨4, 2⟩, ⟨5, 7⟩, ⟨6, 0⟩] 9).1
      (Or.inl (by decide)),
    (lttb_shape [⟨0, 0⟩, ⟨1, 5⟩, ⟨2, 1⟩, ⟨3, 9⟩, ⟨4, 2⟩, ⟨5, 7⟩, ⟨6, 0⟩] 4).2
      (by decide) (by decide)⟩

/-- C4: semantics of an analytics event.  A single record whose id matches a
stored record (strict equality, first match) replaces that record in place,
leaving the length unchanged; a single record with no match is prepended with
the length growing by one, capped at 5000; an array payload replaces the whole
collection by the payload sorted descending by evaluatedAt and truncated to
5000 entries. -/
theorem analytics_event_semantics :
    (∀ (s : Store) (row : AnalyticsRec) (j : ℕ),
      s.analytics.findIdx? (fun r => r.id == row.id) = some j →
        (applyMsg s (.analyticsOne row)).analytics.length = s.analytics.length ∧
        (applyMsg s (.analyticsOne row)).analytics.getD j dfltRec = row ∧
        ∀ k, k ≠ j →
          (applyMsg s (.analyticsOne row)).analytics.getD k dfltRec =
            s.analytics.getD k dfltRec) ∧
    (∀ (s : Store) (row : AnalyticsRec),
      s.analytics.findIdx? (fun r => r.id == row.id) = none →
        (applyMsg s (.analyticsOne row)).analytics.length =
          min (s.analytics.length + 1) 5000 ∧
        (applyMsg s (.analyticsOne row)).analytics.head? = some row) ∧
    (∀ (s : Store) (rows : List AnalyticsRec),
      (applyMsg s (.analyticsArr rows)).analytics.length = min rows.length 5000 ∧
      List.Pairwise alMoreRecent (applyMsg s (.analyticsArr rows)).analytics ∧
      ∀ r ∈ (applyMsg s (.analyticsArr rows)).analytics, r ∈ rows) := by
  refine ⟨?_, ?_, ?_⟩
  · intro s row j hj
    have hjl : j < s.analytics.length := (List.findIdx?_eq_some_iff_findIdx_eq.mp hj).1
    have hset : (applyMsg s (.analyticsOne row)).analytics = s.analytics.set j row := by
      unfold applyMsg
      dsimp only
      rw [hj]
    refine ⟨by rw [hset, List.length_set], ?_, ?_⟩
    · rw [hset, List.getD_eq_getElem?_getD, List.getElem?_set_self hjl]
      rfl
    · intro k hk
      rw [hset, List.getD_eq_getElem?_getD, List.getElem?_set_ne (Ne.symm hk),
        ← List.getD_eq_getElem?_getD]
  · intro s row hnone
    have hpre : (applyMsg s (.analyticsOne row)).analytics =
        (row :: s.analytics).take 5000 := by
      unfold applyMsg
      dsimp only
      rw [hnone]
    refine ⟨?_, ?_⟩
    · rw [hpre]
      simp only [List.length_take, List.length_cons]
      omega
    · rw [hpre]
      rfl
  · intro s rows
    have harr : (applyMsg s (.analyticsArr rows)).analytics =
        (alSortDesc rows).take 5000 := rfl
    refine ⟨?_, ?_, ?_⟩
    · rw [harr]
      simp only [List.length_take]
      have := (List.perm_insertionSort alMoreRecent rows).length_eq
      unfold alSortDesc
      omega
    · rw [harr]
      exact (List.sorted_insertionSort alMoreRecent rows).sublist
        (List.take_sublist 5000 _)
    · intro r hr
      rw [harr] at hr
      have : r ∈ alSortDesc rows := List.take_subset 5000 _ hr
      exact (List.mem_insertionSort alMoreRecent).mp this

/-- Witness for C4: a matching-id upsert on a two-record store replaces the
second record in place, and a fresh-id upsert on the same store prepends. -/
theorem analytics_event_semantics_witness :
    ((applyMsg { emptyStore with analytics := [⟨some "a", some "t2"⟩, ⟨some "b", some "t1"⟩] }
        (.analyticsOne ⟨some "b", some "t3"⟩)).analytics.length =
      ([⟨some "a", some "t2"⟩, ⟨some "b", some "t1"⟩] : List AnalyticsRec).length) ∧
    ((applyMsg { emptyStore with analytics := [⟨some "a", some "t2"⟩, ⟨some "b", some "t1"⟩] }
        (.analyticsOne ⟨some "c", some "t3"⟩)).analytics.head? = some ⟨some "c", some "t3"⟩) :=
  ⟨((analytics_event_semantics.1
      { emptyStore with analytics := [⟨some "a", some "t2"⟩, ⟨some "b", some "t1"⟩] }
      ⟨some "b", some "t3"⟩ 1 (by rfl)).1),
    ((analytics_event_semantics.2.1
      { emptyStore with analytics := [⟨some "a", some "t2"⟩, ⟨some "b", some "t1"⟩] }
      ⟨some "c", some "t3"⟩ (by rfl)).2)⟩

/-- Any single event keeps the analytics collection within 5000 entries; the
in-place upsert preserves the length, every other analytics-touching branch
truncates to 5000, and the remaining branches leave the slice alone. -/
theorem applyMsg_analytics_le (s : Store) (m : WsMsg)
    (h : s.analytics.length ≤ 5000) : (applyMsg s m).analytics.length ≤ 5000 := by
  cases m with
  | init pf ps tr an =>
    simpa [applyMsg, List.length_take] using Nat.min_le_left _ _
  | analyticsArr rows =>
    simpa [applyMsg, List.length_take] using Nat.min_le_left _ _
  | analyticsOne row =>
    unfold applyMsg
    dsimp only
    cases hf : s.analytics.findIdx? (fun r => r.id == row.id) with
    | some j => simpa [List.length_set] using h
    | none => simpa [List.length_take] using Nat.min_le_left _ _
  | portfolioMsg p => exact h
  | positionsMsg p => exact h
  | tradesMsg p => exact h
  | trade p => exact h
  | analyticsNull => exact h
  | pong => exact h
  | errorMsg => exact h
  | other t => exact h

/-- C1 (amended): a trade event always leaves at most 200 trades, keeps the
newly arrived trade at the head and evicts only from the tail (the oldest end
of the newest-first list); and from any state whose analytics collection is
within its cap, any sequence of events whatsoever — analytics and init events
included — keeps the analytics collection within 5000 entries.  The bulk
trades replace is deliberately absent here: it installs its payload uncapped
(see the counterexample). -/
theorem store_caps :
    (∀ (s : Store) (t : Option String),
      (applyMsg s (.trade t)).trades.length ≤ 200 ∧
      (applyMsg s (.trade t)).trades.head? = some t ∧
      ∃ k, (applyMsg s (.trade t)).trades = (t :: s.trades).take k) ∧
    (∀ (s : Store) (ms : List WsMsg), s.analytics.length ≤ 5000 →
      (applyAll s ms).analytics.length ≤ 5000) := by
  constructor
  · intro s t
    have htr : (applyMsg s (.trade t)).trades = (t :: s.trades).take 200 := rfl
    refine ⟨?_, ?_, 200, htr⟩
    · rw [htr]
      simpa [List.length_take] using Nat.min_le_left _ _
    · rw [htr]
      rfl
  · intro s ms h
    induction ms generalizing s with
    | nil => exact h
    | cons m rest ih => exact ih (applyMsg s m) (applyMsg_analytics_le s m h)

/-- Witness for C1 at the empty store: one trade event and a short event
sequence touching analytics. -/
theorem store_caps_witness :
    (applyMsg emptyStore (.trade (some "t"))).trades.length ≤ 200 ∧
      (applyAll emptyStore [.analyticsOne dfltRec, .analyticsArr [dfltRec]]).analytics.length ≤
        5000 :=
  ⟨(store_caps.1 emptyStore (some "t")).1,
    store_caps.2 emptyStore [.analyticsOne dfltRec, .analyticsArr [dfltRec]] (by decide)⟩

/-- Counterexample to C1 as stated: a bulk trades event with 201 rows installs
all 201 of them, so the trade collection does exceed 200 after a sequence of
trade/trades events. -/
theorem store_caps_cex :
    (applyMsg emptyStore (.tradesMsg (some (List.replicate 201 none)))).trades.length = 201 ∧
      ¬(applyMsg emptyStore
          (.tradesMsg (some (List.replicate 201 none)))).trades.length ≤ 200 := by
  have h : (applyMsg emptyStore (.tradesMsg (some (List.replicate 201 none)))).trades =
      List.replicate 201 none := rfl
  rw [h, List.length_replicate]
  exact ⟨rfl, by omega⟩

/-- C9 (amended): an event of unrecognized type leaves all four store slices
unchanged, pong and server-error events leave the store unchanged, and a frame
that fails to decode never modifies the store (the catch handler logs and
drops it; applyMsg itself is a total function, the model of "never throws past
the boundary").  A recognized-type event with an absent payload can still
modify state — see the counterexample. -/
theorem unknown_event_frame :
    (∀ (s : Store) (t : String),
      (applyMsg s (.other t)).portfolio = s.portfolio ∧
      (applyMsg s (.other t)).positions = s.positions ∧
      (applyMsg s (.other t)).trades = s.trades ∧
      (applyMsg s (.other t)).analytics = s.analytics) ∧
    (∀ s : Store, applyMsg s .pong = s ∧ applyMsg s .errorMsg = s) ∧
    (∀ s : Store, onFrame s none = s) :=
  ⟨fun _ _ => ⟨rfl, rfl, rfl, rfl⟩, fun _ => ⟨rfl, rfl⟩, fun _ => rfl⟩

/-- Counterexample to C9 as stated: the malformed event of recognized type
trade with an absent (undefined) payload does modify existing state — it
prepends an undefined entry to the trade collection. -/
theorem unknown_event_frame_cex :
    (applyMsg emptyStore (.trade none)).trades = [none] ∧
      (applyMsg emptyStore (.trade none)).trades ≠ emptyStore.trades :=
  ⟨rfl, by decide⟩

/-- Shadowing an association-list key leaves other keys unchanged. -/
theorem lookupAddr_shadow_ne (m : AddrMap) (a a' : String) (v : ℚ) (h : a ≠ a') :
    lookupAddr ((a, v) :: m) a' = lookupAddr m a' := by
  simp [lookupAddr, h]

/-- Enriching one position only touches its own key in prevLastByAddress. -/
theorem enrichOne_lookup (m : AddrMap) (p : RawPos) (a : String) (h : p.address ≠ a) :
    lookupAddr (enrichOne m p).2 a = lookupAddr m a := by
  unfold enrichOne
  dsimp only
  cases hl : toNumOrNull p.lastPriceRaw with
  | none => rfl
  | some l => exact lookupAddr_shadow_ne m p.address a l h

/-- The direction the code computes for a single item equals the claim-side
direction taken against the record as this item sees it. -/
theorem enrichOne_dir (m : AddrMap) (p : RawPos) :
    (enrichOne m p).1.lastDir =
      dirPerClaim (lookupAddr m p.address) (toNumOrNull p.lastPriceRaw) := by
  unfold enrichOne dirPerClaim
  dsimp only

/-- On a batch whose addresses are pairwise distinct, every item's direction is
computed against the pre-event record. -/
theorem enrichPositions_dir (payload : List RawPos) :
    ∀ m : AddrMap, (payload.map RawPos.address).Nodup →
      ∀ k, k < payload.length →
        ((enrichPositions m payload).1.getD k dfltPV).lastDir =
          dirPerClaim (lookupAddr m ((payload.getD k dfltRaw).address))
            (toNumOrNull ((payload.getD k dfltRaw).lastPriceRaw)) := by
  induction payload with
  | nil => intro m _ k hk; simp at hk
  | cons p rest ih =>
    intro m hnd k hk
    have hcons : (enrichPositions m (p :: rest)).1 =
        (enrichOne m p).1 :: (enrichPositions (enrichOne m p).2 rest).1 := rfl
    match k with
    | 0 =>
      rw [hcons]
      exact enrichOne_dir m p
    | Nat.succ k2 =>
      have hk2 : k2 < rest.length := by simpa using hk
      have hnd2 : (rest.map RawPos.address).Nodup := (List.nodup_cons.mp (by simpa using hnd)).2
      have hnotin : p.address ∉ rest.map RawPos.address :=
        (List.nodup_cons.mp (by simpa using hnd)).1
      have hmem : rest.getD k2 dfltRaw ∈ rest := by
        rw [List.getD_eq_getElem?_getD, List.getElem?_eq_getElem hk2]
        exact List.getElem_mem hk2
      have hne : p.address ≠ (rest.getD k2 dfltRaw).address := by
        intro hcontra
        exact hnotin (hcontra ▸ List.mem_map_of_mem RawPos.address hmem)
      rw [hcons]
      have step := ih (enrichOne m p).2 hnd2 k2 hk2
      have hgd : ((enrichOne m p).1 :: (enrichPositions (enrichOne m p).2 rest).1).getD
          (k2 + 1) dfltPV = (enrichPositions (enrichOne m p).2 rest).1.getD k2 dfltPV := rfl
      rw [hgd, step, enrichOne_lookup m p _ hne]
      rfl

/-- C5 (amended): on a positions batch with pairwise-distinct addresses each
item's direction is computed against the price recorded before the event, and
the claimed scenarios hold: two consecutive single-position events with
lastPrice 100 then 90 mark the second down, 110 marks it up, an equal price
marks it flat, and a fresh address with no recorded price is flat.  When a
batch repeats an address, the later item is instead compared against the
earlier item of the same batch (see the counterexample). -/
theorem positions_direction_spec :
    (∀ (m : AddrMap) (payload : List RawPos), (payload.map RawPos.address).Nodup →
      ∀ k, k < payload.length →
        ((enrichPositions m payload).1.getD k dfltPV).lastDir =
          dirPerClaim (lookupAddr m ((payload.getD k dfltRaw).address))
            (toNumOrNull ((payload.getD k dfltRaw).lastPriceRaw))) ∧
    ((enrichPositions (enrichPositions [] [⟨"0xA", .num (.fin 100), .undef⟩]).2
        [⟨"0xA", .num (.fin 90), .undef⟩]).1.getD 0 dfltPV).lastDir = .down ∧
    ((enrichPositions (enrichPositions [] [⟨"0xA", .num (.fin 100), .undef⟩]).2
        [⟨"0xA", .num (.fin 110), .undef⟩]).1.getD 0 dfltPV).lastDir = .up ∧
    ((enrichPositions (enrichPositions [] [⟨"0xA", .num (.fin 100), .undef⟩]).2
        [⟨"0xA", .num (.fin 100), .undef⟩]).1.getD 0 dfltPV).lastDir = .flat ∧
    ((enrichPositions [] [⟨"0xA", .num (.fin 100), .undef⟩]).1.getD 0 dfltPV).lastDir = .flat :=
  ⟨fun m payload => enrichPositions_dir payload m, by decide, by decide, by decide, by decide⟩

/-- Witness for C5's universal part, at a fresh one-item batch. -/
theorem positions_direction_spec_witness :
    ((enrichPositions [] [⟨"0xA", .num (.fin 100), .undef⟩]).1.getD 0 dfltPV).lastDir =
      MoveDir.flat := by
  have h := positions_direction_spec.1 [] [⟨"0xA", .num (.fin 100), .undef⟩]
    (by decide) 0 (by decide)
  simpa using h

/-- Counterexample to C5 as stated: a batch that repeats the address compares
its second item against the first item of the same batch, not against the
record as it stood before the event (which holds no price for the address, so
the claim would require flat). -/
theorem positions_direction_cex :
    lookupAddr ([] : AddrMap) "0xA" = none ∧
      ((enrichPositions []
          [⟨"0xA", .num (.fin 100), .undef⟩, ⟨"0xA", .num (.fin 90), .undef⟩]).1.getD 1
          dfltPV).lastDir = .down ∧
      MoveDir.down ≠ dirPerClaim (lookupAddr ([] : AddrMap) "0xA")
        (toNumOrNull (.num (.fin 90))) := by
  refine ⟨rfl, by decide, by decide⟩

/-- Summing the indicator of membership in one of the ten bins over the bin
range gives one, provided the index is in range. -/
theorem sum_bin_indicator (z : ℤ) (h0 : 0 ≤ z) (h9 : z ≤ 9) :
    (∑ b ∈ Finset.range 10, if z = (b : ℤ) then 1 else 0) = 1 := by
  have hz : z = ((z.toNat : ℕ) : ℤ) := (Int.toNat_of_nonneg h0).symm
  have hlt : z.toNat < 10 := by omega
  have hcongr : ∀ b ∈ Finset.range 10,
      (if z = (b : ℤ) then 1 else 0) = (if b = z.toNat then 1 else 0) := by
    intro b _
    by_cases hb : b = z.toNat
    · rw [if_pos hb, if_pos (by omega)]
    · rw [if_neg hb, if_neg (by omega)]
  rw [Finset.sum_congr rfl hcongr,
    Finset.sum_ite_eq' (Finset.range 10) z.toNat (fun _ => 1),
    if_pos (Finset.mem_range.mpr hlt)]

/-- A list whose elements all map into the ten bins is partitioned by the ten
per-bin counts. -/
theorem countP_bins (l : List ℚ) (f : ℚ → ℤ) (h : ∀ v ∈ l, 0 ≤ f v ∧ f v ≤ 9) :
    (∑ b ∈ Finset.range 10, l.countP (fun v => decide (f v = (b : ℤ)))) = l.length := by
  induction l with
  | nil => simp
  | cons v t ih =>
    have hv := h v (List.mem_cons_self v t)
    have ht : ∀ w ∈ t, 0 ≤ f w ∧ f w ≤ 9 := fun w hw => h w (List.mem_cons_of_mem v hw)
    have hcnt : ∀ b : ℕ, (v :: t).countP (fun w => decide (f w = (b : ℤ))) =
        t.countP (fun w => decide (f w = (b : ℤ))) + (if f v = (b : ℤ) then 1 else 0) := by
      intro b
      rw [List.countP_cons]
      simp
    calc (∑ b ∈ Finset.range 10, (v :: t).countP (fun w => decide (f w = (b : ℤ))))
        = ∑ b ∈ Finset.range 10,
            (t.countP (fun w => decide (f w = (b : ℤ))) + (if f v = (b : ℤ) then 1 else 0)) :=
          Finset.sum_congr rfl (fun b _ => hcnt b)
      _ = (∑ b ∈ Finset.range 10, t.countP (fun w => decide (f w = (b : ℤ)))) +
            (∑ b ∈ Finset.range 10, if f v = (b : ℤ) then 1 else 0) :=
          Finset.sum_add_distrib
      _ = t.length + 1 := by rw [ih ht, sum_bin_indicator (f v) hv.1 hv.2]
      _ = (v :: t).length := by simp

/-- C7 (amended): on a non-empty sample decileEdges yields the 11 interpolated
quantile edges at q = 0, 0.1, …, 1.0, binIndex maps every value to exactly one
bin index in [0, 9], and the ten bin counts partition the sample (they sum to
its size).  The per-bin counts need not be within one of n/10: duplicated
values collapse quantile edges and pile into one bin (see the
counterexample). -/
theorem decile_binning_spec (values : List ℚ) (hne : values ≠ []) :
    (decileEdges values).length = 11 ∧
    (∀ i, i < 11 → (decileEdges values).getD i 0 = quantile (sortAsc values) ((i : ℚ) / 10)) ∧
    (∀ v : ℚ, 0 ≤ binIndex (.fin v) (decileEdges values) ∧
      binIndex (.fin v) (decileEdges values) ≤ 9) ∧
    (∑ b ∈ Finset.range 10,
        values.countP (fun v => decide (binIndex (.fin v) (decileEdges values) = (b : ℤ))) =
      values.length) := by
  have hlen : (decileEdges values).length = 11 := by
    simp [decileEdges]
  have hb : ∀ v : ℚ, 0 ≤ binIndex (.fin v) (decileEdges values) ∧
      binIndex (.fin v) (decileEdges values) ≤ 9 := by
    intro v
    have := (binIndex_bounds_aux (.fin v) (decileEdges values) (by omega)).2
    rw [hlen] at this
    exact ⟨this.1, by omega⟩
  refine ⟨hlen, ?_, hb, ?_⟩
  · intro i hi
    rw [List.getD_eq_getElem?_getD]
    unfold decileEdges
    rw [List.getElem?_map, List.getElem?_range hi]
    rfl
  · exact countP_bins values (fun v => binIndex (.fin v) (decileEdges values))
      (fun v _ => hb v)

/-- Witness for C7 on the two-point sample. -/
theorem decile_binning_spec_witness :
    (decileEdges [0, 1]).length = 11 ∧
      (∑ b ∈ Finset.range 10,
          ([0, 1] : List ℚ).countP
            (fun v => decide (binIndex (.fin v) (decileEdges [0, 1]) = (b : ℤ))) =
        ([0, 1] : List ℚ).length) :=
  ⟨(decile_binning_spec [0, 1] (by decide)).1,
    (decile_binning_spec [0, 1] (by decide)).2.2.2⟩

/-- Counterexample to C7 as stated: a sample of ten equal values and one
larger value collapses the lower quantile edges, so bin 0 receives ten of the
eleven elements — far outside n/10 ± 1. -/
theorem decile_binning_cex :
    ([0, 0, 0, 0, 0, 0, 0, 0, 0, 0, 1] : List ℚ).countP
        (fun v => decide (binIndex (.fin v) (decileEdges [0, 0, 0, 0, 0, 0, 0, 0, 0, 0, 1]) = 0)) =
      10 ∧
    ¬((10 : ℚ) ≤ (([0, 0, 0, 0, 0, 0, 0, 0, 0, 0, 1] : List ℚ).length : ℚ) / 10 + 1) := by
  have hedges : decileEdges [0, 0, 0, 0, 0, 0, 0, 0, 0, 0, 1] =
      [0, 0, 0, 0, 0, 0, 0, 0, 0, 0, 1] := by
    have hsort : sortAsc [0, 0, 0, 0, 0, 0, 0, 0, 0, 0, 1] =
        [0, 0, 0, 0, 0, 0, 0, 0, 0, 0, 1] := by
      norm_num [sortAsc, List.insertionSort, List.orderedInsert]
    unfold decileEdges
    rw [show List.range 11 = [0, 1, 2, 3, 4, 5, 6, 7, 8, 9, 10] by rfl]
    simp only [List.map, hsort]
    norm_num [quantile, List.getD]
    simp
  constructor
  · simp only [hedges]
    decide
  · norm_num

/-- A left fold of Math.min over finite values from a finite seed stays
finite. -/
theorem foldl_jMinOp_fin :
    ∀ l : List JNum, (∀ v ∈ l, v.isFiniteN) →
      ∀ q : ℚ, ∃ m : ℚ, l.foldl jMinOp (.fin q) = .fin m := by
  intro l
  induction l with
  | nil => exact fun _ q => ⟨q, rfl⟩
  | cons v t ih =>
    intro hl q
    have hv := hl v (List.mem_cons_self v t)
    cases v with
    | fin p =>
      exact ih (fun w hw => hl w (List.mem_cons_of_mem _ hw)) (min q p)
    | nan => simp [JNum.isFiniteN] at hv
    | inf => simp [JNum.isFiniteN] at hv
    | ninf => simp [JNum.isFiniteN] at hv

/-- A left fold of Math.max over finite values from a finite seed stays
finite. -/
theorem foldl_jMaxOp_fin :
    ∀ l : List JNum, (∀ v ∈ l, v.isFiniteN) →
      ∀ q : ℚ, ∃ m : ℚ, l.foldl jMaxOp (.fin q) = .fin m := by
  intro l
  induction l with
  | nil => exact fun _ q => ⟨q, rfl⟩
  | cons v t ih =>
    intro hl q
    have hv := hl v (List.mem_cons_self v t)
    cases v with
    | fin p =>
      exact ih (fun w hw => hl w (List.mem_cons_of_mem _ hw)) (max q p)
    | nan => simp [JNum.isFiniteN] at hv
    | inf => simp [JNum.isFiniteN] at hv
    | ninf => simp [JNum.isFiniteN] at hv

/-- The spread minimum of a non-empty all-finite sample is finite. -/
theorem jsMinOf_fin (l : List JNum) (hne : l ≠ []) (hl : ∀ v ∈ l, v.isFiniteN) :
    ∃ m : ℚ, jsMinOf l = .fin m := by
  cases l with
  | nil => exact absurd rfl hne
  | cons v t =>
    have hv := hl v (List.mem_cons_self v t)
    cases v with
    | fin p =>
      exact foldl_jMinOp_fin t (fun w hw => hl w (List.mem_cons_of_mem _ hw)) p
    | nan => simp [JNum.isFiniteN] at hv
    | inf => simp [JNum.isFiniteN] at hv
    | ninf => simp [JNum.isFiniteN] at hv

/-- The spread maximum of a non-empty all-finite sample is finite. -/
theorem jsMaxOf_fin (l : List JNum) (hne : l ≠ []) (hl : ∀ v ∈ l, v.isFiniteN) :
    ∃ m : ℚ, jsMaxOf l = .fin m := by
  cases l with
  | nil => exact absurd rfl hne
  | cons v t =>
    have hv := hl v (List.mem_cons_self v t)
    cases v with
    | fin p =>
      exact foldl_jMaxOp_fin t (fun w hw => hl w (List.mem_cons_of_mem _ hw)) p
    | nan => simp [JNum.isFiniteN] at hv
    | inf => simp [JNum.isFiniteN] at hv
    | ninf => simp [JNum.isFiniteN] at hv

/-- On a non-empty all-finite sample the histogram step is a nonzero finite
number (the || 1 fallback replaces a zero width). -/
theorem binsStep_fin (values : List JNum) (hne : values ≠ [])
    (hfin : ∀ v ∈ values, v.isFiniteN) :
    ∃ c : ℚ, c ≠ 0 ∧ binsStep values 12 = .fin c := by
  obtain ⟨a, ha⟩ := jsMinOf_fin values hne hfin
  obtain ⟨b, hb⟩ := jsMaxOf_fin values hne hfin
  unfold binsStep
  rw [ha, hb]
  have h12 : ((12 : ℕ) : ℚ) ≠ 0 := by norm_num
  have hsub : jSub (.fin b) (.fin a) = .fin (b - a) := rfl
  rw [hsub]
  rw [if_neg (by norm_num : ¬(12 = 0))]
  have hdiv : jDiv (.fin (b - a)) (.fin ((12 : ℕ) : ℚ)) = .fin ((b - a) / ((12 : ℕ) : ℚ)) := by
    show (if ((12 : ℕ) : ℚ) = 0 then
        (if (b - a) = 0 then JNum.nan else if 0 < (b - a) then JNum.inf else JNum.ninf)
      else JNum.fin ((b - a) / ((12 : ℕ) : ℚ))) = JNum.fin ((b - a) / ((12 : ℕ) : ℚ))
    rw [if_neg h12]
  rw [hdiv]
  by_cases hz : (b - a) / ((12 : ℕ) : ℚ) = 0
  · refine ⟨1, one_ne_zero, ?_⟩
    unfold jOrDefault jTruthy
    rw [if_neg (by simpa using hz)]
  · refine ⟨(b - a) / ((12 : ℕ) : ℚ), hz, ?_⟩
    unfold jOrDefault jTruthy
    rw [if_pos (by simpa using hz)]

/-- On finite data with a finite minimum and a finite nonzero step, the
histogram index of a finite value is a natural number below the bin count. -/
theorem binsIndexOf_nat (values : List JNum) (a c : ℚ)
    (ha : jsMinOf values = .fin a) (hc : binsStep values 12 = .fin c) (hcne : c ≠ 0)
    (q : ℚ) :
    ∃ k : ℕ, k < 12 ∧ binsIndexOf values 12 (.fin q) = .fin ((k : ℕ) : ℚ) := by
  set z : ℤ := min 11 (max 0 (Int.floor ((q - a) / c))) with hz
  have hz0 : 0 ≤ z := le_min (by omega) (le_max_left 0 _)
  have hz11 : z ≤ 11 := min_le_left _ _
  refine ⟨z.toNat, by omega, ?_⟩
  unfold binsIndexOf
  rw [ha, hc]
  have hsub : jSub (.fin q) (.fin a) = .fin (q - a) := rfl
  rw [hsub]
  have hdiv : jDiv (.fin (q - a)) (.fin c) = .fin ((q - a) / c) := by
    show (if c = 0 then
        (if (q - a) = 0 then JNum.nan else if 0 < (q - a) then JNum.inf else JNum.ninf)
      else JNum.fin ((q - a) / c)) = JNum.fin ((q - a) / c)
    rw [if_neg hcne]
  rw [hdiv]
  have hfloor : jFloor (.fin ((q - a) / c)) = .fin ((Int.floor ((q - a) / c) : ℤ) : ℚ) := rfl
  rw [hfloor]
  have hmax : jMaxOp (.fin 0) (.fin ((Int.floor ((q - a) / c) : ℤ) : ℚ)) =
      .fin (max 0 ((Int.floor ((q - a) / c) : ℤ) : ℚ)) := rfl
  rw [hmax]
  have hmin : jMinOp (.fin (((12 : ℕ) : ℚ) - 1)) (.fin (max 0 ((Int.floor ((q - a) / c) : ℤ) : ℚ))) =
      .fin (min (((12 : ℕ) : ℚ) - 1) (max 0 ((Int.floor ((q - a) / c) : ℤ) : ℚ))) := rfl
  rw [hmin]
  congr 1
  have hcast : ((z.toNat : ℕ) : ℚ) = ((z : ℤ) : ℚ) := by
    rw [show ((z.toNat : ℕ) : ℚ) = (((z.toNat : ℕ) : ℤ) : ℚ) by push_cast; ring,
      Int.toNat_of_nonneg hz0]
  rw [hcast, hz]
  push_cast
  norm_num

/-- Incrementing a within-range natural slot is a set-and-add. -/
theorem bumpCount_nat (counts : List ℕ) (k : ℕ) (hk : k < counts.length) :
    bumpCount counts (.fin ((k : ℕ) : ℚ)) = counts.set k (counts.getD k 0 + 1) := by
  show (if 0 ≤ ((k : ℕ) : ℚ).num ∧ ((k : ℕ) : ℚ).den = 1 ∧
        ((k : ℕ) : ℚ).num.toNat < counts.length then
      counts.set ((k : ℕ) : ℚ).num.toNat (counts.getD ((k : ℕ) : ℚ).num.toNat 0 + 1)
    else counts) = counts.set k (counts.getD k 0 + 1)
  rw [if_pos]
  · rw [Rat.num_natCast, Int.toNat_natCast]
  · refine ⟨by rw [Rat.num_natCast]; omega, Rat.den_natCast k, ?_⟩
    rw [Rat.num_natCast, Int.toNat_natCast]
    exact hk

/-- Bumping one within-range slot raises the total count by one. -/
theorem sum_set_bump : ∀ (l : List ℕ) (k : ℕ), k < l.length →
    (l.set k (l.getD k 0 + 1)).sum = l.sum + 1 := by
  intro l
  induction l with
  | nil => intro k hk; simp at hk
  | cons x t ih =>
    intro k hk
    cases k with
    | zero =>
      show ((x + 1) :: t).sum = (x :: t).sum + 1
      simp [List.sum_cons]
      omega
    | succ k2 =>
      have hk2 : k2 < t.length := by simpa using hk
      show (x :: t.set k2 (t.getD k2 0 + 1)).sum = (x :: t).sum + 1
      simp only [List.sum_cons, ih k2 hk2]
      omega

/-- A bump never changes the number of bins. -/
theorem bumpCount_length (counts : List ℕ) (idx : JNum) :
    (bumpCount counts idx).length = counts.length := by
  cases idx with
  | fin q =>
    show (if 0 ≤ q.num ∧ q.den = 1 ∧ q.num.toNat < counts.length then
        counts.set q.num.toNat (counts.getD q.num.toNat 0 + 1)
      else counts).length = counts.length
    split
    · rw [List.length_set]
    · rfl
  | nan => rfl
  | inf => rfl
  | ninf => rfl

/-- The counting fold preserves the number of bins. -/
theorem histFold_length (g : JNum → JNum) :
    ∀ (vs : List JNum) (counts : List ℕ),
      (vs.foldl (fun c v => bumpCount c (g v)) counts).length = counts.length := by
  intro vs
  induction vs with
  | nil => intro counts; rfl
  | cons v t ih =>
    intro counts
    rw [List.foldl_cons, ih, bumpCount_length]

/-- On all-finite input batches the counting fold adds exactly one per value. -/
theorem histFold_sum (values : List JNum) (a c : ℚ)
    (ha : jsMinOf values = .fin a) (hc : binsStep values 12 = .fin c) (hcne : c ≠ 0) :
    ∀ (vs : List JNum) (counts : List ℕ), (∀ v ∈ vs, v.isFiniteN) → counts.length = 12 →
      (vs.foldl (fun cs v => bumpCount cs (binsIndexOf values 12 v)) counts).sum =
        counts.sum + vs.length := by
  intro vs
  induction vs with
  | nil => intro counts _ _; simp
  | cons v t ih =>
    intro counts hfin hlen
    have hv := hfin v (List.mem_cons_self v t)
    cases v with
    | fin q =>
      obtain ⟨k, hk12, hkeq⟩ := binsIndexOf_nat values a c ha hc hcne q
      rw [List.foldl_cons, hkeq, bumpCount_nat counts k (by omega),
        ih _ (fun w hw => hfin w (List.mem_cons_of_mem _ hw))
          (by rw [List.length_set]; exact hlen),
        sum_set_bump counts k (by omega)]
      simp [List.length_cons]
      omega
    | nan => simp [JNum.isFiniteN] at hv
    | inf => simp [JNum.isFiniteN] at hv
    | ninf => simp [JNum.isFiniteN] at hv

/-- C8 (amended): the 12-bin histogram always yields 12 per-bin counts
without error, and when every input sample is finite the counts sum to the
number of samples.  A non-finite sample does not merely drop itself: it
poisons the min/max and step, sending every sample's index to NaN, so the
per-bin counts can undercount the finite samples (see the counterexample). -/
theorem histogram_counts_spec (values : List JNum) :
    (makeHistogram values 12).length = 12 ∧
    ((∀ v ∈ values, v.isFiniteN) → (makeHistogram values 12).sum = values.length) := by
  constructor
  · unfold makeHistogram
    rw [histFold_length]
    simp
  · intro hfin
    cases hv : values with
    | nil => subst hv; rfl
    | cons v t =>
      have hne : values ≠ [] := by rw [hv]; exact List.cons_ne_nil v t
      rw [← hv]
      obtain ⟨a, ha⟩ := jsMinOf_fin values hne hfin
      obtain ⟨c, hcne, hc⟩ := binsStep_fin values hne hfin
      unfold makeHistogram
      rw [histFold_sum values a c ha hc hcne values (List.replicate 12 0) hfin (by simp)]
      simp

/-- Witness for C8 on an all-finite two-sample input. -/
theorem histogram_counts_spec_witness :
    (makeHistogram [.fin 0, .fin 1] 12).sum = ([.fin 0, .fin 1] : List JNum).length :=
  (histogram_counts_spec [.fin 0, .fin 1]).2 (by decide)

/-- Counterexample to C8 as stated: with samples 0, 1 and NaN the histogram
counts sum to 0, not to the number (2) of finite samples — the NaN poisons
Math.min/Math.max, the step becomes NaN || 1, and every index computation
yields NaN, so even the finite samples are dropped. -/
theorem histogram_counts_cex :
    (makeHistogram [.fin 0, .fin 1, .nan] 12).sum = 0 ∧
      (([.fin 0, .fin 1, .nan] : List JNum).filter JNum.isFiniteN).length = 2 ∧
      (0 : ℕ) ≠ 2 := by
  decide
